import Mathlib

/-!
# Verification development for the vanagon dependency scanning action

A shallow embedding of `main.go` (the snyk variant of the action) and of the
mend variant kept beside it, followed by the theorems about them.

Go strings are embedded as Lean `String` where the program only concatenates
or compares them, and as lists of bytes (`List Nat`) where the program indexes
them by byte (`getEnvVar`'s handling of `INPUT_BRANCH`).
-/

namespace VanagonAction

/-! ## Data model -/

/-- Modelled from the spec: the `VulnReport` type declaration is not part of the
sources at hand. The spec gives a finding the fields
`(packageName, version, severity, identifier, metadata)`; the code reads only
`PackageName` and `Version`. -/
structure VulnReport where
  PackageName : String
  Version : String
  Severity : String
  Identifier : String
  Metadata : String
  deriving DecidableEq, Repr

/-- The pair `vulnExists` compares findings by. -/
def VulnReport.key (v : VulnReport) : String × String :=
  (v.PackageName, v.Version)

/-! ## `vulnExists` and the aggregation loop of `main` -/

/-- The function `vulnExists` of `main.go`: a linear scan that returns `true` at
the first element with the same package name and version. -/
def vulnExists : List VulnReport → VulnReport → Bool
  | [], _ => false
  | v :: rest, vuln =>
    if v.PackageName == vuln.PackageName && v.Version == vuln.Version then true
    else vulnExists rest vuln

/-- Body of the inner loop `for _, v := range result` of `main`. -/
def appendIfNew (totalVulns : List VulnReport) (v : VulnReport) : List VulnReport :=
  if !vulnExists totalVulns v then totalVulns ++ [v] else totalVulns

/-- The inner loop of `main` over one received `result`. -/
def mergeResult (totalVulns : List VulnReport) (result : List VulnReport) :
    List VulnReport :=
  result.foldl appendIfNew totalVulns

/-- The aggregation loop of `main` (lines 342-349): `totalVulns` starts empty and
every result received on `sresults` is merged in the order received. -/
def aggregate (results : List (List VulnReport)) : List VulnReport :=
  results.foldl mergeResult []

/-- The keys of a list of findings, in order. -/
def keysOf (l : List VulnReport) : List (String × String) :=
  l.map VulnReport.key

/-- Follows the spec's words: the concatenation of all results in received
order with every finding removed whose `(PackageName, Version)` already occurred
earlier in that concatenation. Position `i` is kept exactly when no position
before `i` carries the same key. -/
def firstOccurrences (results : List (List VulnReport)) : List VulnReport :=
  let all := results.flatten
  (List.range all.length).filterMap fun i =>
    match all[i]? with
    | none => none
    | some v => if (all.take i).any (fun w => w.key == v.key) then none else some v

/-- Two scan results sharing the finding `(foo, 1.0)`, with different metadata,
plus one finding of their own each (the scenario of the spec). -/
def scenarioResults : List (List VulnReport) :=
  [[⟨"foo", "1.0", "high", "SNYK-1", "agent linux"⟩,
    ⟨"bar", "2.1", "medium", "SNYK-2", "agent linux"⟩],
   [⟨"foo", "1.0", "high", "SNYK-1", "agent windows"⟩,
    ⟨"baz", "0.3", "medium", "SNYK-3", "agent windows"⟩]]

/-! ## `getEnvVar`: the branch value

Go strings are byte sequences: `len(branch)` counts bytes and `branch[0:10]`
slices bytes, while package `regexp` walks the string rune by rune, decoding
UTF-8. Bytes are natural numbers below 256. -/

/-- UTF-8 encoding of one code point (used to write Go string constants). -/
def encodeRune (c : Nat) : List Nat :=
  if c < 0x80 then [c]
  else if c < 0x800 then [0xC0 + c / 64, 0x80 + c % 64]
  else if c < 0x10000 then [0xE0 + c / 4096, 0x80 + c / 64 % 64, 0x80 + c % 64]
  else [0xF0 + c / 262144, 0x80 + c / 4096 % 64, 0x80 + c / 64 % 64, 0x80 + c % 64]

/-- The bytes of a Go string constant. -/
def utf8 (s : String) : List Nat :=
  s.toList.flatMap fun c => encodeRune c.toNat

/-- A UTF-8 continuation byte. -/
def isCont (b : Nat) : Bool := 0x80 ≤ b && b ≤ 0xBF

/-- Lower bound on the second byte of a multi-byte form with first byte `b0`
(Go's `acceptRanges`). -/
def acceptLo (b0 : Nat) : Nat :=
  if b0 = 0xE0 then 0xA0 else if b0 = 0xF0 then 0x90 else 0x80

/-- Upper bound on the second byte of a multi-byte form with first byte `b0`
(Go's `acceptRanges`). -/
def acceptHi (b0 : Nat) : Nat :=
  if b0 = 0xED then 0x9F else if b0 = 0xF4 then 0x8F else 0xBF

/-- The 2-byte case of `decodeRune`. -/
def decode2 (b0 : Nat) : List Nat → Nat × Nat
  | b1 :: _ => if isCont b1 then (b0 % 32 * 64 + b1 % 64, 2) else (0xFFFD, 1)
  | _ => (0xFFFD, 1)

/-- The 3-byte case of `decodeRune`. -/
def decode3 (b0 : Nat) : List Nat → Nat × Nat
  | b1 :: b2 :: _ =>
    if acceptLo b0 ≤ b1 ∧ b1 ≤ acceptHi b0 ∧ isCont b2 then
      (b0 % 16 * 4096 + b1 % 64 * 64 + b2 % 64, 3)
    else (0xFFFD, 1)
  | _ => (0xFFFD, 1)

/-- The 4-byte case of `decodeRune`. -/
def decode4 (b0 : Nat) : List Nat → Nat × Nat
  | b1 :: b2 :: b3 :: _ =>
    if acceptLo b0 ≤ b1 ∧ b1 ≤ acceptHi b0 ∧ isCont b2 ∧ isCont b3 then
      (b0 % 8 * 262144 + b1 % 64 * 4096 + b2 % 64 * 64 + b3 % 64, 4)
    else (0xFFFD, 1)
  | _ => (0xFFFD, 1)

/-- Go's `utf8.DecodeRuneInString`: the first rune of the bytes and its width;
an invalid or truncated encoding decodes as `U+FFFD` of width 1 (width 0 on the
empty string). -/
def decodeRune : List Nat → Nat × Nat
  | [] => (0xFFFD, 0)
  | b0 :: rest =>
    if b0 < 0x80 then (b0, 1)
    else if 0xC2 ≤ b0 ∧ b0 ≤ 0xDF then decode2 b0 rest
    else if 0xE0 ≤ b0 ∧ b0 ≤ 0xEF then decode3 b0 rest
    else if 0xF0 ≤ b0 ∧ b0 ≤ 0xF4 then decode4 b0 rest
    else (0xFFFD, 1)

/-- The runes of a Go string as the regexp engine steps through them, each with
the bytes that encode it. `fuel` bounds the number of runes; the byte length is
always enough since every step consumes at least one byte. -/
def runesAux : Nat → List Nat → List (Nat × List Nat)
  | 0, _ => []
  | _, [] => []
  | fuel + 1, b :: rest =>
    let rw := decodeRune (b :: rest)
    (rw.1, (b :: rest).take rw.2) :: runesAux fuel ((b :: rest).drop rw.2)

/-- The runes of a Go string. -/
def runes (s : List Nat) : List (Nat × List Nat) :=
  runesAux s.length s

/-- The character class `[a-zA-Z0-9-]`; the regexp of `getEnvVar` is its
negation, `[^a-zA-Z0-9-]+`. -/
def inBranchClass (r : Nat) : Bool :=
  (97 ≤ r && r ≤ 122) || (65 ≤ r && r ≤ 90) || (48 ≤ r && r ≤ 57) || r == 45

/-- What `decodeRune` guarantees at a first byte of 128 or more: the rune is
outside the class, spans between 1 and all of the remaining bytes, and none of
its bytes is in the class. -/
def HighRune (s : List Nat) (rw : Nat × Nat) : Prop :=
  inBranchClass rw.1 = false ∧ 1 ≤ rw.2 ∧ rw.2 ≤ s.length ∧
    ∀ b ∈ s.take rw.2, inBranchClass b = false

/-- The call `reg.ReplaceAllString(branch, "")` for the regexp
`[^a-zA-Z0-9-]+`: every maximal run of runes outside the class is replaced by
the empty string, so exactly the bytes of the runes inside the class remain. -/
def replaceAllDisallowed (s : List Nat) : List Nat :=
  ((runes s).filter fun r => inBranchClass r.1).flatMap fun r => r.2

/-- Lines 72-83 of `getEnvVar`, for a non-empty `INPUT_BRANCH`: slice to the
first 10 bytes when longer, then strip by the regexp. -/
def sanitizeBranch (branch : List Nat) : List Nat :=
  let branch := if branch.length > 10 then branch.take 10 else branch
  replaceAllDisallowed branch

/-- The fields of `config` that `getEnvVar` of `main.go` fills in. The two skip
lists (`SkipPlatforms`, `SkipProjects`) are left out: they are computed from
other variables and nothing here reads them. -/
structure config where
  SnykToken : List Nat
  SnykOrg : List Nat
  GithubWorkspace : List Nat
  NoMonitor : Bool
  Debug : Bool
  Branch : List Nat
  deriving DecidableEq, Repr

/-- The function `getEnvVar` of `main.go`. The environment is `os.Getenv`: a
variable that is not set reads as the empty string. -/
def getEnvVar (getenv : String → List Nat) : Except String config :=
  let token := getenv "INPUT_SNYKTOKEN"
  if token = [] then .error "no snyk token set" else
  let org := getenv "INPUT_SNYKORG"
  if org = [] then .error "no snyk org set" else
  let workspace := getenv "GITHUB_WORKSPACE"
  if workspace = [] then .error "no github workspace set" else
  let nomon := getenv "INPUT_NOMONITOR"
  let debug := getenv "INPUT_SVDEBUG"
  let branch := getenv "INPUT_BRANCH"
  .ok { SnykToken := token
        SnykOrg := org
        GithubWorkspace := workspace
        NoMonitor := nomon ≠ []
        Debug := debug ≠ []
        Branch := if branch ≠ [] then sanitizeBranch branch else [] }

/-- Follows the spec's words: the input truncated to its first 10 characters
and then stripped of every character outside `[A-Za-z0-9-]`. -/
def branchByCharacters (branch : List Nat) : List Nat :=
  (((runes branch).take 10).filter fun r => inBranchClass r.1).flatMap fun r => r.2

/-- An environment with the required variables set and the given branch. -/
def envWithBranch (branch : List Nat) : String → List Nat := fun name =>
  if name = "INPUT_SNYKTOKEN" then utf8 "t0ken"
  else if name = "INPUT_SNYKORG" then utf8 "org"
  else if name = "GITHUB_WORKSPACE" then utf8 "/github/workspace"
  else if name = "INPUT_BRANCH" then branch
  else []

/-! ## The scan stage of `main`: the semaphore `sem`

The interleavings of `main`'s dispatch loop (lines 329-341), of the `runSnyk`
goroutines it starts and of `main`'s collection loop are the runs of a step
function over the state below. One action is one channel operation or one
call/return of `snykTest`. -/

/-- The variable `MAX_V_DEPS` of `main.go`, the capacity of `sem`. -/
def MAX_V_DEPS : Nat := 20

/-- Where a `runSnyk` goroutine stands. -/
inductive Phase where
  /-- Started by `go runSnyk(...)`, before the call of `snykTest`. -/
  | launched
  /-- Inside `snykTest`, the external scan invocation. -/
  | scanning
  /-- The call `snykTest` has returned (`err` tells which path), `<-sem` not yet done. -/
  | returned (err : Bool)
  /-- After `<-sem`, blocked on `results <- ...`. -/
  | released (err : Bool)
  /-- The result has been handed to `main`. -/
  | done
  deriving DecidableEq, Repr

/-- State of the scan stage. -/
structure SchedState where
  /-- Number of values buffered in the channel `sem`. -/
  sem : Nat
  /-- Number of elements of `p` the dispatch loop has still to visit. -/
  todo : Nat
  /-- The dispatch loop is between `sem <- 1` and `go runSnyk(...)`. -/
  holding : Bool
  /-- One phase per goroutine started so far. -/
  tasks : List Phase
  /-- Number of results `main` has received from `sresults`. -/
  received : Nat
  deriving DecidableEq, Repr

/-- One atomic action of `main` or of the goroutine with the given index. -/
inductive Action where
  /-- The dispatch loop does `sem <- 1`. -/
  | acquire
  /-- The dispatch loop does `go runSnyk(...)`. -/
  | spawn
  /-- A goroutine calls `snykTest`. -/
  | enter (i : Nat)
  /-- The call `snykTest` returns without error in a goroutine. -/
  | scanOk (i : Nat)
  /-- The call `snykTest` returns an error in a goroutine. -/
  | scanErr (i : Nat)
  /-- A goroutine does `<-sem` (line 197 on the error path, line 201 otherwise). -/
  | release (i : Nat)
  /-- A goroutine's send on `results` meets `result := <-sresults` of `main`. -/
  | deliver (i : Nat)
  deriving DecidableEq, Repr

/-- The state when the dispatch loop starts on `n` elements. -/
def SchedState.init (n : Nat) : SchedState :=
  { sem := 0, todo := n, holding := false, tasks := [], received := 0 }

/-- One step with a semaphore of capacity `k`; `none` when the action is not
enabled (a send on a full `sem` and a receive on an empty one block, and `main`
receives results only after its dispatch loop is over). -/
def step (k : Nat) (s : SchedState) : Action → Option SchedState
  | .acquire =>
    if 0 < s.todo ∧ s.holding = false ∧ s.sem < k then
      some { s with sem := s.sem + 1, holding := true }
    else none
  | .spawn =>
    if s.holding = true then
      some { s with todo := s.todo - 1, holding := false, tasks := s.tasks ++ [Phase.launched] }
    else none
  | .enter i =>
    if s.tasks[i]? = some Phase.launched then
      some { s with tasks := s.tasks.set i Phase.scanning }
    else none
  | .scanOk i =>
    if s.tasks[i]? = some Phase.scanning then
      some { s with tasks := s.tasks.set i (Phase.returned false) }
    else none
  | .scanErr i =>
    if s.tasks[i]? = some Phase.scanning then
      some { s with tasks := s.tasks.set i (Phase.returned true) }
    else none
  | .release i =>
    match s.tasks[i]? with
    | some (Phase.returned err) =>
      if 0 < s.sem then
        some { s with sem := s.sem - 1, tasks := s.tasks.set i (Phase.released err) }
      else none
    | _ => none
  | .deliver i =>
    match s.tasks[i]? with
    | some (Phase.released _) =>
      if s.todo = 0 ∧ s.holding = false then
        some { s with tasks := s.tasks.set i Phase.done, received := s.received + 1 }
      else none
    | _ => none

/-- Run a schedule, action by action; `none` when some action is not enabled. -/
def run (k : Nat) (s : SchedState) : List Action → Option SchedState
  | [] => some s
  | a :: rest =>
    match step k s a with
    | some s' => run k s' rest
    | none => none

/-- A goroutine in this phase holds a slot of `sem`. -/
def Phase.holdsSlot : Phase → Bool
  | .launched | .scanning | .returned _ => true
  | _ => false

/-- A goroutine in this phase is inside the external scan invocation. -/
def Phase.inScan : Phase → Bool
  | .scanning => true
  | _ => false

/-- Number of goroutines inside `snykTest`. -/
def scansRunning (s : SchedState) : Nat := s.tasks.countP Phase.inScan

/-- Number of slots accounted for: one per goroutine that has not yet done
`<-sem`, and one for `main` between `sem <- 1` and `go`. -/
def slotsOwed (s : SchedState) : Nat :=
  s.tasks.countP Phase.holdsSlot + (if s.holding then 1 else 0)

/-- The invariant of the scan stage: every buffered value of `sem` is owed by a
goroutine that has not yet released, or by `main` about to start one, and the
buffer never exceeds its capacity. -/
def SchedInv (k : Nat) (s : SchedState) : Prop :=
  s.sem = slotsOwed s ∧ s.sem ≤ k

/-! ## `buildGemFile`, `processProjPlat` and the two stages of `main` -/

/-- The variable `LOCKFILE_DIR` of `main.go`. -/
def LOCKFILE_DIR : String := "gen_lockfile"

/-- A dependency as `buildGemFile` reads it: the fields `Name` and `Version` of
the type `gem`. -/
structure gem where
  Name : String
  Version : String
  deriving DecidableEq, Repr

/-- A target with its dependencies, as `processProjPlat` reads it. -/
structure depsOut where
  Project : String
  Platform : String
  Gems : List gem
  deriving DecidableEq, Repr

/-- The record `processProjPlat` sends to `main`. -/
structure processOut where
  hasGems : Bool
  project : String
  platform : String
  path : String
  deriving DecidableEq, Repr

/-- The zero value `processOut{}` of Go. -/
def processOut.zero : processOut :=
  { hasGems := false, project := "", platform := "", path := "" }

/-- Split a string at every occurrence of a separator character. -/
def splitOn (sep : Char) : List Char → List (List Char)
  | [] => [[]]
  | c :: cs =>
    if c = sep then [] :: splitOn sep cs
    else
      match splitOn sep cs with
      | [] => [[c]]
      | w :: ws => (c :: w) :: ws

/-- The element loop of Go's `filepath.Clean` on the path elements; `out` holds
the elements emitted so far, last first. Empty elements and `.` are dropped; `..`
removes the last emitted real element, is kept on a relative path when there is
none to remove, and is dropped at the root. -/
def cleanElems (rooted : Bool) : List (List Char) → List (List Char) → List (List Char)
  | out, [] => out.reverse
  | out, e :: es =>
    if e = [] ∨ e = ['.'] then cleanElems rooted out es
    else if e = ['.', '.'] then
      match out with
      | top :: below =>
        if top = ['.', '.'] then cleanElems rooted (e :: out) es
        else cleanElems rooted below es
      | [] => if rooted then cleanElems rooted [] es else cleanElems rooted [e] es
    else cleanElems rooted (e :: out) es

/-- Go's `filepath.Clean` with separator `/`: the shortest path equivalent to
its argument by lexical processing; the empty result is `.`. -/
def filepathClean (path : List Char) : List Char :=
  if path = [] then ['.']
  else
    let rooted := path.head? = some '/'
    let body := ['/'].intercalate (cleanElems rooted [] (splitOn '/' path))
    if rooted then '/' :: body else if body = [] then ['.'] else body

/-- Go's `filepath.Join` with separator `/`: leading empty elements are ignored,
the others are joined with `/` and the result is cleaned; `""` when every element
is empty. -/
def filepathJoin (elem : List String) : String :=
  match elem.dropWhile (fun e => e = "") with
  | [] => ""
  | es => String.mk (filepathClean (['/'].intercalate (es.map String.data)))

/-- The first line of every Gemfile `buildGemFile` writes. -/
def gemfileHeader : String :=
  "source ENV['GEM_SOURCE'] || \"https://rubygems.org\"\n"

/-- The value of `fmt.Sprintf("gem \"%s\", %s\n", gem.Name, gem.Version)`. -/
def gemLine (g : gem) : String :=
  "gem \"" ++ g.Name ++ "\", " ++ g.Version ++ "\n"

/-- Lines 108-111 of `buildGemFile`: the text of the Gemfile. -/
def renderGemfile (gems : List gem) : String :=
  gems.foldl (fun gemfile g => gemfile ++ gemLine g) gemfileHeader

/-- The value `oFolder` of `buildGemFile`: `fmt.Sprintf("%s_%s", project, platform)`. -/
def oFolder (project platform : String) : String :=
  project ++ "_" ++ platform

/-- The value `lOutpath` of `buildGemFile`. -/
def lOutpath (project platform : String) : String :=
  filepathJoin [LOCKFILE_DIR, oFolder project platform]

/-- The outcome of every fallible call `buildGemFile` makes, in program order:
`none` is success, `some e` the error returned. -/
structure BuildWorld where
  mkdirRoot : Option String
  mkdirOut : Option String
  writeFile : Option String
  getwd : Option String
  chdir : Option String
  bundleLock : Option String
  chdirBack : Option String
  deriving DecidableEq, Repr

/-- A world in which every call succeeds. -/
def BuildWorld.allOk : BuildWorld :=
  ⟨none, none, none, none, none, none, none⟩

/-- What `buildGemFile` returns, and the arguments of its `os.WriteFile` call
when that call is reached. -/
structure BuildResult where
  result : Except String String
  written : Option (String × String)

/-- The function `buildGemFile` of `main.go`. -/
def buildGemFile (w : BuildWorld) (project platform : String) (gems : List gem) :
    BuildResult :=
  let gemfile := renderGemfile gems
  match w.mkdirRoot with
  | some e => ⟨.error e, none⟩
  | none =>
  let lOut := lOutpath project platform
  match w.mkdirOut with
  | some e => ⟨.error e, none⟩
  | none =>
  let fPath := filepathJoin [LOCKFILE_DIR, oFolder project platform, "Gemfile"]
  match w.writeFile with
  | some e => ⟨.error e, some (fPath, gemfile)⟩
  | none =>
  match w.getwd with
  | some e => ⟨.error e, some (fPath, gemfile)⟩
  | none =>
  match w.chdir with
  | some e => ⟨.error e, some (fPath, gemfile)⟩
  | none =>
  match w.bundleLock with
  | some e => ⟨.error e, some (fPath, gemfile)⟩
  | none =>
  match w.chdirBack with
  | some e => ⟨.error e, some (fPath, gemfile)⟩
  | none => ⟨.ok lOut, some (fPath, gemfile)⟩

/-- The function `processProjPlat` of `main.go`: the value it sends on `results`. -/
def processProjPlat (w : BuildWorld) (deps : depsOut) : processOut :=
  if deps.Gems.length > 0 then
    match (buildGemFile w deps.Project deps.Platform deps.Gems).result with
    | .error _ => processOut.zero
    | .ok path =>
      { hasGems := true, project := deps.Project, platform := deps.Platform, path := path }
  else
    match (buildGemFile w deps.Project deps.Platform deps.Gems).result with
    | .error _ => processOut.zero
    | .ok path =>
      { hasGems := false, project := deps.Project, platform := deps.Platform, path := path }

/-- Lines 315-327 of `main`: the slice `p` of everything received on `results`,
one value per target, for the targets listed in the order their goroutines
send. Each target comes with the world its build runs in. -/
def collectProcessOuts (targets : List (BuildWorld × depsOut)) : List processOut :=
  targets.map fun t => processProjPlat t.1 t.2

/-- Lines 334-341 of `main`: the arguments of the `go runSnyk(po, ...)`
statements executed, in order: one per element of `p`. -/
def scansLaunched (p : List processOut) : List processOut :=
  p.foldl (fun launched po => launched ++ [po]) []

/-- The targets whose `buildGemFile` call returns without error. -/
def successfulBuilds (targets : List (BuildWorld × depsOut)) : List (BuildWorld × depsOut) :=
  targets.filter fun t =>
    match (buildGemFile t.1 t.2.Project t.2.Platform t.2.Gems).result with
    | .ok _ => true
    | .error _ => false

/-! ## `snykTest` -/

/-- How a command started with `exec.Command(...).Run()` ended. -/
inductive CmdResult where
  /-- The process ran and exited with this code. -/
  | exited (code : Nat)
  /-- The process was terminated by a signal. -/
  | signaled (signal : String)
  /-- The process could not be started. -/
  | notStarted (reason : String)
  deriving DecidableEq, Repr

/-- The error `Run()` returns: `nil` for exit code 0, and otherwise an error
whose `Error()` text is `exit status N` for an exit with code `N`. -/
def CmdResult.err : CmdResult → Option String
  | .exited code => if code = 0 then none else some ("exit status " ++ toString code)
  | .signaled signal => some ("signal: " ++ signal)
  | .notStarted reason => some reason

/-- The function `snykTest` of `main.go`, as a function of how the two external
commands end and of what `snyk test` prints. The extraction of the findings from
the JSON output (`gjson.Get(sout, "vulnerabilities")` and `NewVulnReport`, which
are not part of the sources at hand) is the parameter `parse`. An error is
returned as its text. -/
def snykTest (parse : String → List VulnReport) (noMonitor : Bool)
    (monitor test : CmdResult) (out : String) : Except String (List VulnReport) :=
  match (if !noMonitor then monitor.err else none) with
  | some e => .error e
  | none =>
    match test.err with
    | some e =>
      if e ≠ "exit status 1" then .error e
      else .ok (parse out)
    | none => .ok (parse out)

/-! ## The `vulns` output of `main` -/

/-- Go's `strings.TrimSuffix`. -/
def trimSuffix (s suffix : String) : String :=
  if suffix.data.isSuffixOf s.data then
    String.mk (s.data.take (s.data.length - suffix.data.length))
  else s

/-- Lines 351-363 of `main`: the text printed after `::set-output name=vulns::`
(followed by a newline when the list is not empty). The method `String()` of
`VulnReport`, which is not part of the sources at hand, is the parameter `str`. -/
def vulnsValue (str : VulnReport → String) : List VulnReport → String
  | v0 :: rest =>
    let outString := rest.foldl (fun outString v => outString ++ (str v ++ ",")) (str v0)
    trimSuffix outString ","
  | [] => " "

/-- Follows the spec's words: the `String()` of each finding, in report order,
joined by the delimiter `,`; a blank value for the empty list. -/
def vulnsDelimited (str : VulnReport → String) (totalVulns : List VulnReport) : String :=
  if totalVulns = [] then " " else ",".intercalate (totalVulns.map str)

/-! ## Theorems: aggregation -/

theorem vulnExists_iff (l : List VulnReport) (v : VulnReport) :
    vulnExists l v = true ↔ v.key ∈ keysOf l := by
  induction l with
  | nil => simp [vulnExists, keysOf]
  | cons w rest ih =>
    unfold vulnExists
    by_cases h : w.PackageName = v.PackageName ∧ w.Version = v.Version
    · have hk : v.key = w.key := by
        simp [VulnReport.key, h.1, h.2]
      simp [h.1, h.2, keysOf, hk]
    · have hk : ¬ v.key = w.key := by
        intro hk
        simp only [VulnReport.key, Prod.mk.injEq] at hk
        exact h ⟨hk.1.symm, hk.2.symm⟩
      have hb : (w.PackageName == v.PackageName && w.Version == v.Version) = false := by
        rw [Bool.eq_false_iff]
        intro hc
        simp only [Bool.and_eq_true, beq_iff_eq] at hc
        exact h hc
      rw [hb]
      simp only [Bool.false_eq_true, if_false, ih]
      simp [keysOf, hk] at *

theorem vulnExists_eq_any (l : List VulnReport) (v : VulnReport) :
    vulnExists l v = l.any (fun w => w.key == v.key) := by
  rw [Bool.eq_iff_iff, vulnExists_iff]
  simp only [keysOf, List.mem_map, List.any_eq_true, beq_iff_eq]

theorem aggregate_eq_foldl_flatten (acc : List VulnReport) (rs : List (List VulnReport)) :
    rs.foldl mergeResult acc = rs.flatten.foldl appendIfNew acc := by
  induction rs generalizing acc with
  | nil => rfl
  | cons r rs ih =>
    simp only [List.foldl_cons, List.flatten_cons, List.foldl_append]
    exact ih _

theorem mem_keysOf_appendIfNew (acc : List VulnReport) (v : VulnReport)
    (k : String × String) :
    k ∈ keysOf (appendIfNew acc v) ↔ k ∈ keysOf acc ∨ k = v.key := by
  unfold appendIfNew
  by_cases h : vulnExists acc v = true
  · have hm := (vulnExists_iff acc v).1 h
    simp only [h, Bool.not_true, Bool.false_eq_true, if_false]
    constructor
    · exact Or.inl
    · rintro (h1 | h1)
      · exact h1
      · exact h1 ▸ hm
  · simp only [Bool.not_eq_true] at h
    simp [h, keysOf]

theorem mem_keysOf_foldl (l acc : List VulnReport) (k : String × String) :
    k ∈ keysOf (l.foldl appendIfNew acc) ↔ k ∈ keysOf acc ∨ k ∈ keysOf l := by
  induction l generalizing acc with
  | nil => simp [keysOf]
  | cons v l ih =>
    simp only [List.foldl_cons, ih, mem_keysOf_appendIfNew]
    simp only [keysOf, List.map_cons, List.mem_cons]
    tauto

theorem nodup_keysOf_appendIfNew (acc : List VulnReport) (v : VulnReport)
    (h : (keysOf acc).Nodup) : (keysOf (appendIfNew acc v)).Nodup := by
  unfold appendIfNew
  by_cases hv : vulnExists acc v = true
  · simpa [hv] using h
  · have hn : v.key ∉ keysOf acc := fun hm => hv ((vulnExists_iff acc v).2 hm)
    simp only [Bool.not_eq_true] at hv
    simp only [hv, Bool.not_false, if_true, keysOf, List.map_append, List.map_cons,
      List.map_nil]
    rw [List.nodup_append]
    refine ⟨h, by simp, ?_⟩
    intro a ha hb
    simp only [List.mem_singleton] at hb
    exact hn (hb ▸ ha)

theorem nodup_keysOf_foldl (l acc : List VulnReport) (h : (keysOf acc).Nodup) :
    (keysOf (l.foldl appendIfNew acc)).Nodup := by
  induction l generalizing acc with
  | nil => simpa using h
  | cons v l ih => exact ih _ (nodup_keysOf_appendIfNew acc v h)

theorem firstOccurrences_snoc (rs : List (List VulnReport)) (l : List VulnReport)
    (x : VulnReport) (hl : rs.flatten = l ++ [x]) :
    firstOccurrences rs =
      firstOccurrences [l] ++ (if l.any (fun w => w.key == x.key) then [] else [x]) := by
  unfold firstOccurrences
  simp only [hl, List.flatten_cons, List.flatten_nil, List.append_nil, List.length_append,
    List.length_singleton, List.range_succ, List.filterMap_append]
  congr 1
  · apply List.filterMap_congr
    intro i hi
    have hi' : i < l.length := List.mem_range.1 hi
    rw [List.getElem?_append_left hi', List.take_append_of_le_length (Nat.le_of_lt hi')]
  · simp only [List.filterMap_cons, List.filterMap_nil]
    have h1 : (l ++ [x])[l.length]? = some x := by simp
    have h2 : (l ++ [x]).take l.length = l := by simp
    rw [h1, h2]
    by_cases hc : l.any (fun w => w.key == x.key) = true
    · simp [hc]
    · simp only [Bool.not_eq_true] at hc
      simp [hc]

theorem foldl_appendIfNew_eq_firstOccurrences (l : List VulnReport) :
    l.foldl appendIfNew [] = firstOccurrences [l] := by
  induction l using List.reverseRecOn with
  | nil => rfl
  | append_singleton l x ih =>
    rw [List.foldl_append, List.foldl_cons, List.foldl_nil, ih,
      firstOccurrences_snoc [l ++ [x]] l x (by simp)]
    unfold appendIfNew
    rw [← ih, vulnExists_eq_any]
    have hany : (List.foldl appendIfNew [] l).any (fun w => w.key == x.key)
        = l.any (fun w => w.key == x.key) := by
      rw [Bool.eq_iff_iff]
      have := mem_keysOf_foldl l [] x.key
      simp only [keysOf, List.map_nil, List.not_mem_nil, false_or, List.mem_map] at this
      simp only [List.any_eq_true, beq_iff_eq]
      exact this
    rw [hany]
    by_cases hc : l.any (fun w => w.key == x.key) = true
    · simp [hc]
    · simp only [Bool.not_eq_true] at hc
      simp [hc]

theorem foldl_appendIfNew_sublist (l acc : List VulnReport) :
    ∃ t, t.Sublist l ∧ l.foldl appendIfNew acc = acc ++ t := by
  induction l generalizing acc with
  | nil => exact ⟨[], List.Sublist.refl _, by simp⟩
  | cons v l ih =>
    obtain ⟨t, ht, he⟩ := ih (appendIfNew acc v)
    by_cases hv : vulnExists acc v = true
    · refine ⟨t, ht.cons v, ?_⟩
      rw [List.foldl_cons, he]
      simp [appendIfNew, hv]
    · simp only [Bool.not_eq_true] at hv
      refine ⟨v :: t, ht.cons₂ v, ?_⟩
      rw [List.foldl_cons, he]
      simp [appendIfNew, hv]

/-- C1: starting from an empty `totalVulns`, the aggregate built by the loop of
`main` never holds two findings with equal `(PackageName, Version)`, whatever the
sequence of results received; and on the spec's scenario (two results sharing
`(foo, 1.0)` plus one finding of their own each) it holds exactly 3 findings. -/
theorem aggregate_no_duplicate_keys :
    (∀ rs : List (List VulnReport),
      (aggregate rs).Pairwise (fun a b => a.key ≠ b.key)) ∧
    (aggregate scenarioResults).length = 3 := by
  refine ⟨fun rs => ?_, by decide⟩
  have h := nodup_keysOf_foldl rs.flatten [] (by simp [keysOf])
  rw [← aggregate_eq_foldl_flatten] at h
  exact List.pairwise_map.1 h

/-- C2: the aggregate equals the concatenation of the results in received order
with every finding removed whose key already occurred earlier: first occurrences
are kept unchanged, in their order of occurrence (a sublist of the
concatenation), and later duplicates are dropped. -/
theorem aggregate_eq_firstOccurrences (rs : List (List VulnReport)) :
    aggregate rs = firstOccurrences rs ∧ (aggregate rs).Sublist rs.flatten := by
  have hagg : aggregate rs = rs.flatten.foldl appendIfNew [] :=
    aggregate_eq_foldl_flatten [] rs
  constructor
  · rw [hagg, foldl_appendIfNew_eq_firstOccurrences]
    simp [firstOccurrences]
  · obtain ⟨t, ht, he⟩ := foldl_appendIfNew_sublist rs.flatten []
    rw [hagg, he]
    simpa using ht

/-- C3: aggregating any permutation of the list of results yields the same set
of `(PackageName, Version)` keys, which is the key set of all input findings. -/
theorem aggregate_keys_perm_invariant (rs rs' : List (List VulnReport))
    (h : rs.Perm rs') :
    (∀ k, k ∈ keysOf (aggregate rs') ↔ k ∈ keysOf (aggregate rs)) ∧
    (∀ k, k ∈ keysOf (aggregate rs) ↔ k ∈ keysOf rs.flatten) := by
  have key : ∀ qs : List (List VulnReport), ∀ k,
      k ∈ keysOf (aggregate qs) ↔ k ∈ keysOf qs.flatten := by
    intro qs k
    have hagg : aggregate qs = qs.flatten.foldl appendIfNew [] :=
      aggregate_eq_foldl_flatten [] qs
    rw [hagg, mem_keysOf_foldl]
    simp [keysOf]
  refine ⟨fun k => ?_, key rs⟩
  rw [key rs', key rs]
  have hp : rs'.flatten.Perm rs.flatten := (List.Perm.flatten h).symm
  exact (hp.map VulnReport.key).mem_iff

/-- Witness for C3: swapping the two results of the scenario keeps the key set
although the retained `(foo, 1.0)` instance changes. -/
theorem aggregate_keys_perm_invariant_witness :
    scenarioResults.Perm scenarioResults.reverse ∧
    ((∀ k, k ∈ keysOf (aggregate scenarioResults.reverse) ↔
        k ∈ keysOf (aggregate scenarioResults)) ∧
     (∀ k, k ∈ keysOf (aggregate scenarioResults) ↔
        k ∈ keysOf scenarioResults.flatten)) ∧
    aggregate scenarioResults.reverse ≠ aggregate scenarioResults :=
  ⟨(List.reverse_perm scenarioResults).symm,
   aggregate_keys_perm_invariant scenarioResults scenarioResults.reverse
     (List.reverse_perm scenarioResults).symm,
   by decide⟩

/-! ## Theorems: branch sanitization -/

theorem inBranchClass_lt (r : Nat) (h : inBranchClass r = true) : r < 128 := by
  simp only [inBranchClass, Bool.or_eq_true, Bool.and_eq_true, decide_eq_true_eq,
    beq_iff_eq] at h
  omega

theorem inBranchClass_false_of_ge (r : Nat) (h : 128 ≤ r) : inBranchClass r = false := by
  rw [Bool.eq_false_iff]
  intro hc
  have := inBranchClass_lt r hc
  omega

theorem decodeRune_ascii (b0 : Nat) (rest : List Nat) (h : b0 < 128) :
    decodeRune (b0 :: rest) = (b0, 1) := by
  simp [decodeRune, h]

theorem highRune_error (b0 : Nat) (rest : List Nat) (h : 128 ≤ b0) :
    HighRune (b0 :: rest) (0xFFFD, 1) := by
  refine ⟨by decide, le_refl _, by simp, ?_⟩
  intro b hb
  simp only [List.take_succ_cons, List.take_zero, List.mem_singleton] at hb
  exact hb ▸ inBranchClass_false_of_ge b0 h

theorem acceptLo_bounds (b0 : Nat) :
    128 ≤ acceptLo b0 ∧ (b0 = 0xE0 → acceptLo b0 = 0xA0) ∧
      (b0 = 0xF0 → acceptLo b0 = 0x90) := by
  unfold acceptLo
  split_ifs <;> omega

theorem acceptHi_le (b0 : Nat) : acceptHi b0 ≤ 0xBF := by
  unfold acceptHi
  split_ifs <;> omega

theorem highRune_decode2 (b0 : Nat) (rest : List Nat) (h : 0xC2 ≤ b0) (h' : b0 ≤ 0xDF) :
    HighRune (b0 :: rest) (decode2 b0 rest) := by
  have hb0 := inBranchClass_false_of_ge b0 (by omega)
  unfold decode2
  split
  · rename_i b1 r1
    split_ifs with hc
    · simp only [isCont, Bool.and_eq_true, decide_eq_true_eq] at hc
      refine ⟨inBranchClass_false_of_ge _ (by show 128 ≤ b0 % 32 * 64 + b1 % 64; omega),
        by simp, by simp, ?_⟩
      intro b hb
      simp only [List.take_succ_cons, List.take_zero, List.mem_cons, List.mem_nil_iff,
        or_false] at hb
      rcases hb with rfl | rfl
      · exact hb0
      · exact inBranchClass_false_of_ge _ hc.1
    · exact highRune_error b0 _ (by omega)
  · exact highRune_error b0 _ (by omega)

theorem highRune_decode3 (b0 : Nat) (rest : List Nat) (h : 0xE0 ≤ b0) (h' : b0 ≤ 0xEF) :
    HighRune (b0 :: rest) (decode3 b0 rest) := by
  have hb0 := inBranchClass_false_of_ge b0 (by omega)
  obtain ⟨hlo, hloE, -⟩ := acceptLo_bounds b0
  have hhi := acceptHi_le b0
  unfold decode3
  split
  · rename_i b1 b2 r2
    split_ifs with hc
    · simp only [isCont, Bool.and_eq_true, decide_eq_true_eq] at hc
      obtain ⟨h1, h1', h2, -⟩ := hc
      refine ⟨inBranchClass_false_of_ge _ ?_, by simp, by simp, ?_⟩
      · show 128 ≤ b0 % 16 * 4096 + b1 % 64 * 64 + b2 % 64
        by_cases he : b0 = 0xE0
        · have := hloE he
          omega
        · omega
      · intro b hb
        simp only [List.take_succ_cons, List.take_zero, List.mem_cons, List.mem_nil_iff,
          or_false] at hb
        rcases hb with rfl | rfl | rfl
        · exact hb0
        · exact inBranchClass_false_of_ge _ (by omega)
        · exact inBranchClass_false_of_ge _ h2
    · exact highRune_error b0 _ (by omega)
  · exact highRune_error b0 _ (by omega)

theorem highRune_decode4 (b0 : Nat) (rest : List Nat) (h : 0xF0 ≤ b0) (h' : b0 ≤ 0xF4) :
    HighRune (b0 :: rest) (decode4 b0 rest) := by
  have hb0 := inBranchClass_false_of_ge b0 (by omega)
  obtain ⟨hlo, -, hloF⟩ := acceptLo_bounds b0
  have hhi := acceptHi_le b0
  unfold decode4
  split
  · rename_i b1 b2 b3 r3
    split_ifs with hc
    · simp only [isCont, Bool.and_eq_true, decide_eq_true_eq] at hc
      obtain ⟨h1, h1', ⟨h2, -⟩, h3, -⟩ := hc
      refine ⟨inBranchClass_false_of_ge _ ?_, by simp, by simp, ?_⟩
      · show 128 ≤ b0 % 8 * 262144 + b1 % 64 * 4096 + b2 % 64 * 64 + b3 % 64
        by_cases he : b0 = 0xF0
        · have := hloF he
          omega
        · omega
      · intro b hb
        simp only [List.take_succ_cons, List.take_zero, List.mem_cons, List.mem_nil_iff,
          or_false] at hb
        rcases hb with rfl | rfl | rfl | rfl
        · exact hb0
        · exact inBranchClass_false_of_ge _ (by omega)
        · exact inBranchClass_false_of_ge _ h2
        · exact inBranchClass_false_of_ge _ h3
    · exact highRune_error b0 _ (by omega)
  · exact highRune_error b0 _ (by omega)

theorem decodeRune_high (b0 : Nat) (rest : List Nat) (h : 128 ≤ b0) :
    HighRune (b0 :: rest) (decodeRune (b0 :: rest)) := by
  have hlt : ¬ b0 < 128 := by omega
  unfold decodeRune
  simp only [hlt, if_false]
  split_ifs with h2 h3 h4
  · exact highRune_decode2 b0 rest h2.1 h2.2
  · exact highRune_decode3 b0 rest h3.1 h3.2
  · exact highRune_decode4 b0 rest h4.1 h4.2
  · exact highRune_error b0 rest h

theorem runesAux_strip (fuel : Nat) (s : List Nat) (h : s.length ≤ fuel) :
    ((runesAux fuel s).filter fun r => inBranchClass r.1).flatMap (fun r => r.2)
      = s.filter inBranchClass := by
  induction fuel generalizing s with
  | zero =>
    have : s = [] := List.length_eq_zero.1 (Nat.le_zero.1 h)
    subst this
    rfl
  | succ fuel ih =>
    cases s with
    | nil => rfl
    | cons b0 rest =>
      simp only [runesAux]
      by_cases hb : b0 < 128
      · rw [decodeRune_ascii b0 rest hb]
        have hlen : rest.length ≤ fuel := by simpa using h
        have ih' := ih rest hlen
        simp only [List.take_succ_cons, List.take_zero, List.drop_succ_cons, List.drop_zero]
        by_cases hc : inBranchClass b0 = true
        · simp [List.filter_cons, hc, ih']
        · simp only [Bool.not_eq_true] at hc
          simp [List.filter_cons, hc, ih']
      · obtain ⟨hcls, hw1, hw2, hbytes⟩ := decodeRune_high b0 rest (by omega)
        have hlen : ((b0 :: rest).drop (decodeRune (b0 :: rest)).2).length ≤ fuel := by
          rw [List.length_drop]
          simp only [List.length_cons] at h hw2 ⊢
          omega
        have ih' := ih _ hlen
        have hsplit : (b0 :: rest).filter inBranchClass
            = ((b0 :: rest).take (decodeRune (b0 :: rest)).2).filter inBranchClass
              ++ ((b0 :: rest).drop (decodeRune (b0 :: rest)).2).filter inBranchClass := by
          rw [← List.filter_append, List.take_append_drop]
        have hnil : ((b0 :: rest).take (decodeRune (b0 :: rest)).2).filter inBranchClass = [] := by
          rw [List.filter_eq_nil_iff]
          intro b hb'
          simp [hbytes b hb']
        rw [hsplit, hnil, List.nil_append, ← ih']
        simp [List.filter_cons, hcls]

theorem runesAux_ascii (fuel : Nat) (s : List Nat) (h : s.length ≤ fuel)
    (hs : ∀ b ∈ s, b < 128) : runesAux fuel s = s.map fun b => (b, [b]) := by
  induction fuel generalizing s with
  | zero =>
    have : s = [] := List.length_eq_zero.1 (Nat.le_zero.1 h)
    subst this
    rfl
  | succ fuel ih =>
    cases s with
    | nil => rfl
    | cons b0 rest =>
      have hb : b0 < 128 := hs b0 (List.mem_cons_self _ _)
      have hlen : rest.length ≤ fuel := by simpa using h
      simp only [runesAux, decodeRune_ascii b0 rest hb, List.take_succ_cons, List.take_zero,
        List.drop_succ_cons, List.drop_zero, List.map_cons]
      rw [ih rest hlen (fun b hb' => hs b (List.mem_cons_of_mem _ hb'))]

theorem replaceAllDisallowed_eq_filter (s : List Nat) :
    replaceAllDisallowed s = s.filter inBranchClass :=
  runesAux_strip s.length s (le_refl _)

theorem sanitizeBranch_eq (branch : List Nat) :
    sanitizeBranch branch = (branch.take 10).filter inBranchClass := by
  unfold sanitizeBranch
  simp only [replaceAllDisallowed_eq_filter]
  split_ifs with h
  · rfl
  · rw [List.take_of_length_le (by omega)]

theorem branchByCharacters_ascii (branch : List Nat) (hs : ∀ b ∈ branch, b < 128) :
    branchByCharacters branch = (branch.take 10).filter inBranchClass := by
  unfold branchByCharacters runes
  rw [runesAux_ascii branch.length branch (le_refl _) hs, ← List.map_take]
  induction branch.take 10 with
  | nil => rfl
  | cons b l ih =>
    by_cases hc : inBranchClass b = true
    · simp only [List.map_cons, List.filter_cons, hc, if_true, List.flatMap_cons, ih,
        List.singleton_append]
    · simp only [Bool.not_eq_true] at hc
      simp only [List.map_cons, List.filter_cons, hc, Bool.false_eq_true, if_false, ih]

theorem getEnvVar_branch_of_ok (getenv : String → List Nat) (conf : config)
    (hok : getEnvVar getenv = .ok conf) (hne : getenv "INPUT_BRANCH" ≠ []) :
    conf.Branch = sanitizeBranch (getenv "INPUT_BRANCH") := by
  unfold getEnvVar at hok
  simp only at hok
  split_ifs at hok
  simp only [Except.ok.injEq] at hok
  rw [← hok]

/-- C4 as stated fails: for the 15-byte branch `"éééééabcde"` the code slices
the first 10 bytes (the five `é`) and stores the empty string, while the first
10 characters stripped of the disallowed ones are `"abcde"`. -/
theorem getEnvVar_branch_not_by_characters :
    utf8 "éééééabcde" ≠ [] ∧
    (∃ conf, getEnvVar (envWithBranch (utf8 "éééééabcde")) = .ok conf ∧ conf.Branch = []) ∧
    branchByCharacters (utf8 "éééééabcde") = utf8 "abcde" :=
  ⟨by decide, ⟨_, rfl, by decide⟩, by decide⟩

/-- C4 (amended): for every non-empty `INPUT_BRANCH`, the branch stored by
`getEnvVar` is the input cut to its first 10 bytes and then stripped of every
character outside `[A-Za-z0-9-]`; so it has at most 10 characters, all of them in
the class; for an input of ASCII characters only, this is the input cut to its
first 10 characters and then stripped; and `"feature/ABC!! very-long-name"`
gives `"featureAB"`. -/
theorem getEnvVar_branch_sanitized :
    (∀ (getenv : String → List Nat) (conf : config),
      getEnvVar getenv = .ok conf → getenv "INPUT_BRANCH" ≠ [] →
        conf.Branch = ((getenv "INPUT_BRANCH").take 10).filter inBranchClass ∧
        conf.Branch.length ≤ 10 ∧
        (∀ b ∈ conf.Branch, inBranchClass b = true) ∧
        ((∀ b ∈ getenv "INPUT_BRANCH", b < 128) →
          conf.Branch = branchByCharacters (getenv "INPUT_BRANCH"))) ∧
    (∃ conf, getEnvVar (envWithBranch (utf8 "feature/ABC!! very-long-name")) = .ok conf ∧
      conf.Branch = utf8 "featureAB") := by
  refine ⟨?_, ⟨_, rfl, by decide⟩⟩
  intro getenv conf hok hne
  have hb := getEnvVar_branch_of_ok getenv conf hok hne
  rw [sanitizeBranch_eq] at hb
  refine ⟨hb, ?_, ?_, ?_⟩
  · rw [hb]
    exact le_trans (List.length_filter_le _ _) (List.length_take_le _ _)
  · intro b hmem
    rw [hb] at hmem
    exact (List.mem_filter.1 hmem).2
  · intro hs
    rw [hb, branchByCharacters_ascii _ hs]

/-- Witness for C4: the branch `"release/7.x-main"` in an environment with the
required variables set. -/
theorem getEnvVar_branch_sanitized_witness :
    envWithBranch (utf8 "release/7.x-main") "INPUT_BRANCH" ≠ [] ∧
    (∃ conf, getEnvVar (envWithBranch (utf8 "release/7.x-main")) = .ok conf ∧
      conf.Branch = utf8 "release7" ∧ conf.Branch.length ≤ 10) :=
  ⟨by decide, _, rfl, by decide,
    (getEnvVar_branch_sanitized.1 (envWithBranch (utf8 "release/7.x-main")) _ rfl
      (by decide)).2.1⟩

/-! ## Theorems: the scan stage -/

theorem countP_set_phase (f : Phase → Bool) (l : List Phase) (i : Nat) (p q : Phase)
    (h : l[i]? = some p) :
    (l.set i q).countP f + (if f p then 1 else 0) = l.countP f + (if f q then 1 else 0) := by
  induction l generalizing i with
  | nil => simp at h
  | cons x l ih =>
    cases i with
    | zero =>
      simp only [List.getElem?_cons_zero, Option.some.injEq] at h
      subst h
      simp only [List.set_cons_zero, List.countP_cons]
      omega
    | succ i =>
      simp only [List.getElem?_cons_succ] at h
      have := ih i h
      simp only [List.set_cons_succ, List.countP_cons]
      omega

theorem schedInv_init (k n : Nat) : SchedInv k (SchedState.init n) := by
  simp [SchedInv, SchedState.init, slotsOwed]

theorem schedInv_step (k : Nat) (s s' : SchedState) (a : Action)
    (hinv : SchedInv k s) (hstep : step k s a = some s') : SchedInv k s' := by
  obtain ⟨hsem, hk⟩ := hinv
  unfold slotsOwed at hsem
  cases a with
  | acquire =>
    simp only [step] at hstep
    split_ifs at hstep with hc
    simp only [Option.some.injEq] at hstep
    subst hstep
    obtain ⟨-, hh, hlt⟩ := hc
    simp only [hh, Bool.false_eq_true, if_false] at hsem
    simp only [SchedInv, slotsOwed, if_true]
    omega
  | spawn =>
    simp only [step] at hstep
    split_ifs at hstep with hc
    simp only [Option.some.injEq] at hstep
    subst hstep
    simp only [hc, if_true] at hsem
    simp only [SchedInv, slotsOwed, List.countP_append, List.countP_cons, List.countP_nil,
      Phase.holdsSlot, Bool.false_eq_true, if_false, if_true]
    omega
  | enter i =>
    simp only [step] at hstep
    split_ifs at hstep with hc
    simp only [Option.some.injEq] at hstep
    subst hstep
    have := countP_set_phase Phase.holdsSlot s.tasks i _ Phase.scanning hc
    simp only [Phase.holdsSlot, if_true] at this
    simp only [SchedInv, slotsOwed]
    omega
  | scanOk i =>
    simp only [step] at hstep
    split_ifs at hstep with hc
    simp only [Option.some.injEq] at hstep
    subst hstep
    have := countP_set_phase Phase.holdsSlot s.tasks i _ (Phase.returned false) hc
    simp only [Phase.holdsSlot, if_true] at this
    simp only [SchedInv, slotsOwed]
    omega
  | scanErr i =>
    simp only [step] at hstep
    split_ifs at hstep with hc
    simp only [Option.some.injEq] at hstep
    subst hstep
    have := countP_set_phase Phase.holdsSlot s.tasks i _ (Phase.returned true) hc
    simp only [Phase.holdsSlot, if_true] at this
    simp only [SchedInv, slotsOwed]
    omega
  | release i =>
    simp only [step] at hstep
    split at hstep
    · rename_i err hc
      split_ifs at hstep with hpos
      simp only [Option.some.injEq] at hstep
      subst hstep
      have := countP_set_phase Phase.holdsSlot s.tasks i _ (Phase.released err) hc
      simp only [Phase.holdsSlot, if_true, Bool.false_eq_true, if_false] at this
      simp only [SchedInv, slotsOwed]
      omega
    · simp at hstep
  | deliver i =>
    simp only [step] at hstep
    split at hstep
    · rename_i err hc
      split_ifs at hstep with hpos
      simp only [Option.some.injEq] at hstep
      subst hstep
      have := countP_set_phase Phase.holdsSlot s.tasks i _ Phase.done hc
      simp only [Phase.holdsSlot, Bool.false_eq_true, if_false] at this
      simp only [SchedInv, slotsOwed]
      omega
    · simp at hstep

theorem schedInv_run (k : Nat) (acts : List Action) (s s' : SchedState)
    (hinv : SchedInv k s) (hrun : run k s acts = some s') : SchedInv k s' := by
  induction acts generalizing s with
  | nil =>
    simp only [run, Option.some.injEq] at hrun
    exact hrun ▸ hinv
  | cons a rest ih =>
    simp only [run] at hrun
    split at hrun
    · rename_i s1 h1
      exact ih s1 (schedInv_step k s s1 a hinv h1) hrun
    · simp at hrun

theorem scansRunning_le_slotsOwed (s : SchedState) : scansRunning s ≤ slotsOwed s := by
  unfold scansRunning slotsOwed
  have : s.tasks.countP Phase.inScan ≤ s.tasks.countP Phase.holdsSlot := by
    apply List.countP_mono_left
    intro p _ hp
    cases p <;> simp_all [Phase.inScan, Phase.holdsSlot]
  omega

/-- C5: in every state the scan stage can reach from its start on `n` items
with a semaphore of capacity `k` (in `main`, `k = MAX_V_DEPS`), the number of
`runSnyk` goroutines inside the external scan is at most the number of slots
held, which is at most `k`; the slots held are exactly those of the goroutines
that have not yet executed `<-sem` (which both the success and the error path
do after `snykTest` returns) and of `main` about to start one. -/
theorem scan_stage_bounded (k n : Nat) (acts : List Action) (s : SchedState)
    (hrun : run k (SchedState.init n) acts = some s) :
    scansRunning s ≤ s.sem ∧ s.sem ≤ k ∧ s.sem = slotsOwed s := by
  obtain ⟨hsem, hk⟩ := schedInv_run k acts _ s (schedInv_init k n) hrun
  exact ⟨hsem ▸ scansRunning_le_slotsOwed s, hk, hsem⟩

/-- Witness for C5: with capacity 2 and 3 items, after two goroutines entered
the scan the semaphore is full, two scans run, and `main` cannot acquire a third
slot until one of them has returned and released. -/
theorem scan_stage_bounded_witness :
    run 2 (SchedState.init 3) [.acquire, .spawn, .enter 0, .acquire, .spawn, .enter 1]
      = some ⟨2, 1, false, [.scanning, .scanning], 0⟩ ∧
    (scansRunning ⟨2, 1, false, [.scanning, .scanning], 0⟩ ≤ 2 ∧ 2 ≤ 2 ∧
      2 = slotsOwed ⟨2, 1, false, [.scanning, .scanning], 0⟩) ∧
    scansRunning ⟨2, 1, false, [.scanning, .scanning], 0⟩ = 2 ∧
    step 2 ⟨2, 1, false, [.scanning, .scanning], 0⟩ .acquire = none ∧
    (run 2 ⟨2, 1, false, [.scanning, .scanning], 0⟩
      [.scanErr 0, .release 0, .acquire, .spawn, .enter 2]).map scansRunning = some 2 :=
  ⟨by decide,
   scan_stage_bounded 2 3 [.acquire, .spawn, .enter 0, .acquire, .spawn, .enter 1]
     ⟨2, 1, false, [.scanning, .scanning], 0⟩ (by decide),
   by decide, by decide, by decide⟩

/-! ## Theorems: building the manifests -/

theorem splitOn_of_not_mem (sep : Char) (l : List Char) (h : sep ∉ l) :
    splitOn sep l = [l] := by
  induction l with
  | nil => rfl
  | cons c cs ih =>
    have hc : ¬ c = sep := fun e => h (e ▸ List.mem_cons_self _ _)
    have hcs : sep ∉ cs := fun hm => h (List.mem_cons_of_mem _ hm)
    simp [splitOn, hc, ih hcs]

theorem splitOn_append_sep (sep : Char) (l r : List Char) (h : sep ∉ l) :
    splitOn sep (l ++ sep :: r) = l :: splitOn sep r := by
  induction l with
  | nil => simp [splitOn]
  | cons c cs ih =>
    have hc : ¬ c = sep := fun e => h (e ▸ List.mem_cons_self _ _)
    have hcs : sep ∉ cs := fun hm => h (List.mem_cons_of_mem _ hm)
    simp [splitOn, hc, ih hcs]

theorem append_cons_cancel_of_not_mem (x : Char) (a b c d : List Char)
    (ha : x ∉ a) (hc : x ∉ c) (h : a ++ x :: b = c ++ x :: d) : a = c ∧ b = d := by
  induction a generalizing c with
  | nil =>
    cases c with
    | nil => simpa using h
    | cons y c =>
      simp only [List.nil_append, List.cons_append, List.cons.injEq] at h
      exact absurd (h.1 ▸ List.mem_cons_self _ _) hc
  | cons y a ih =>
    cases c with
    | nil =>
      simp only [List.nil_append, List.cons_append, List.cons.injEq] at h
      exact absurd (h.1 ▸ List.mem_cons_self _ _) ha
    | cons z c =>
      simp only [List.cons_append, List.cons.injEq] at h
      obtain ⟨h1, h2⟩ := ih c (fun hm => ha (List.mem_cons_of_mem _ hm))
        (fun hm => hc (List.mem_cons_of_mem _ hm)) h.2
      exact ⟨by rw [h.1, h1], h2⟩

/-- On a folder name without `/` that holds a `_`, joining with `LOCKFILE_DIR`
only puts `gen_lockfile/` in front. -/
theorem filepathClean_lockfile_dir (folder : List Char) (hs : '/' ∉ folder)
    (hu : '_' ∈ folder) :
    filepathClean (LOCKFILE_DIR.data ++ '/' :: folder) = LOCKFILE_DIR.data ++ '/' :: folder := by
  have hgl : '/' ∉ LOCKFILE_DIR.data := by decide
  have h0 : folder ≠ [] := by
    intro e; rw [e] at hu; simp at hu
  have h1 : folder ≠ ['.'] := by
    intro e; rw [e] at hu; revert hu; decide
  have h2 : folder ≠ ['.', '.'] := by
    intro e; rw [e] at hu; revert hu; decide
  have hne : LOCKFILE_DIR.data ++ '/' :: folder ≠ [] := by simp
  unfold filepathClean
  rw [if_neg hne, splitOn_append_sep '/' _ folder hgl, splitOn_of_not_mem '/' folder hs]
  have hc : cleanElems false [] [LOCKFILE_DIR.data, folder] = [LOCKFILE_DIR.data, folder] := by
    have g0 : LOCKFILE_DIR.data ≠ [] := by decide
    have g1 : LOCKFILE_DIR.data ≠ ['.'] := by decide
    have g2 : LOCKFILE_DIR.data ≠ ['.', '.'] := by decide
    simp [cleanElems, h0, h1, h2, g0, g1, g2]
  have hhead : (LOCKFILE_DIR.data ++ '/' :: folder).head? ≠ some '/' := by
    simp [LOCKFILE_DIR]
  simp only [hhead, decide_False, hc]
  simp [List.intercalate, LOCKFILE_DIR]

theorem lOutpath_eq (project platform : String)
    (hp : '/' ∉ project.data) (hq : '/' ∉ platform.data) :
    lOutpath project platform = LOCKFILE_DIR ++ "/" ++ project ++ "_" ++ platform := by
  have hfolder : (oFolder project platform).data = project.data ++ '_' :: platform.data := by
    simp [oFolder, String.data_append]
  have hne : ¬ (LOCKFILE_DIR = "") := by decide
  have hdw : List.dropWhile (fun e => decide (e = "")) [LOCKFILE_DIR, oFolder project platform]
      = [LOCKFILE_DIR, oFolder project platform] := by
    simp [List.dropWhile, hne]
  unfold lOutpath filepathJoin
  rw [hdw]
  simp only [List.map_cons, List.map_nil]
  apply String.ext
  have hint : ['/'].intercalate [LOCKFILE_DIR.data, (oFolder project platform).data]
      = LOCKFILE_DIR.data ++ '/' :: (oFolder project platform).data := by
    simp [List.intercalate]
  simp only [hint]
  rw [filepathClean_lockfile_dir _ (by rw [hfolder]; simp [hp, hq]) (by rw [hfolder]; simp)]
  simp [String.data_append, hfolder]

/-- C8 as stated fails: the targets `(puppet_agent, el-7)` and
`(puppet, agent_el-7)` differ and get the same directory, and so do `(agent, el-7/)`
and `(agent, el-7)`. -/
theorem lOutpath_not_unique :
    (("puppet_agent", "el-7") : String × String) ≠ ("puppet", "agent_el-7") ∧
    lOutpath "puppet_agent" "el-7" = lOutpath "puppet" "agent_el-7" ∧
    (("agent", "el-7/") : String × String) ≠ ("agent", "el-7") ∧
    lOutpath "agent" "el-7/" = lOutpath "agent" "el-7" := by
  decide

/-- C8 (amended): the directory `buildGemFile` returns is a function of project
and platform alone (whatever the dependencies and the outcome of the calls it
makes, a successful call returns `lOutpath project platform`); and for targets
whose project names contain neither `_` nor `/` and whose platform names contain
no `/`, the directory is `LOCKFILE_DIR/<project>_<platform>` and two different
targets get different directories. -/
theorem lOutpath_unique_of_plain_names (p1 q1 p2 q2 : String)
    (hp1 : '_' ∉ p1.data ∧ '/' ∉ p1.data) (hp2 : '_' ∉ p2.data ∧ '/' ∉ p2.data)
    (hq1 : '/' ∉ q1.data) (hq2 : '/' ∉ q2.data) (hne : (p1, q1) ≠ (p2, q2)) :
    lOutpath p1 q1 ≠ lOutpath p2 q2 ∧
    lOutpath p1 q1 = LOCKFILE_DIR ++ "/" ++ p1 ++ "_" ++ q1 ∧
    (∀ (w : BuildWorld) (gems : List gem),
      (buildGemFile w p1 q1 gems).result = .ok (lOutpath p1 q1) ∨
      ∃ e, (buildGemFile w p1 q1 gems).result = .error e) := by
  refine ⟨?_, lOutpath_eq p1 q1 hp1.2 hq1, ?_⟩
  · intro h
    rw [lOutpath_eq p1 q1 hp1.2 hq1, lOutpath_eq p2 q2 hp2.2 hq2] at h
    have hd := congrArg String.data h
    simp only [String.data_append, List.append_assoc] at hd
    have hd' := List.append_cancel_left (List.append_cancel_left hd)
    simp only [List.singleton_append] at hd'
    obtain ⟨e1, e2⟩ := append_cons_cancel_of_not_mem '_' _ _ _ _ hp1.1 hp2.1 hd'
    exact hne (by rw [String.ext e1, String.ext e2])
  · intro w gems
    unfold buildGemFile
    simp only
    split
    · exact Or.inr ⟨_, rfl⟩
    · split
      · exact Or.inr ⟨_, rfl⟩
      · split
        · exact Or.inr ⟨_, rfl⟩
        · split
          · exact Or.inr ⟨_, rfl⟩
          · split
            · exact Or.inr ⟨_, rfl⟩
            · split
              · exact Or.inr ⟨_, rfl⟩
              · split
                · exact Or.inr ⟨_, rfl⟩
                · exact Or.inl rfl

/-- Witness for C8: the targets `(agent, el-7-x86_64)` and `(agent, windows-2012r2-x64)`. -/
theorem lOutpath_unique_of_plain_names_witness :
    lOutpath "agent" "el-7-x86_64" ≠ lOutpath "agent" "windows-2012r2-x64" ∧
    lOutpath "agent" "el-7-x86_64" = LOCKFILE_DIR ++ "/" ++ "agent" ++ "_" ++ "el-7-x86_64" ∧
    (∀ (w : BuildWorld) (gems : List gem),
      (buildGemFile w "agent" "el-7-x86_64" gems).result
          = .ok (lOutpath "agent" "el-7-x86_64") ∨
      ∃ e, (buildGemFile w "agent" "el-7-x86_64" gems).result = .error e) :=
  lOutpath_unique_of_plain_names "agent" "el-7-x86_64" "agent" "windows-2012r2-x64"
    (by decide) (by decide) (by decide) (by decide) (by decide)

theorem join_cons (a : String) (l : List String) :
    String.join (a :: l) = a ++ String.join l := by
  have hj : ∀ (l : List String) (x : String),
      l.foldl (fun r s => r ++ s) x = x ++ l.foldl (fun r s => r ++ s) "" := by
    intro l
    induction l with
    | nil => intro x; simp
    | cons y l ihl =>
      intro x
      simp only [List.foldl_cons]
      rw [ihl (x ++ y), ihl ("" ++ y)]
      simp [String.append_assoc]
  simp only [String.join, List.foldl_cons]
  rw [hj l ("" ++ a)]
  simp

theorem foldl_append_eq_join {α : Type} (f : α → String) (init : String) (l : List α) :
    l.foldl (fun acc x => acc ++ f x) init = init ++ String.join (l.map f) := by
  induction l generalizing init with
  | nil => simp [String.join]
  | cons x l ih =>
    simp only [List.foldl_cons, List.map_cons, ih, join_cons, String.append_assoc]

/-- C10: the Gemfile text `buildGemFile` renders is the header line followed by
one line `gem "<name>", <version>` per dependency, in input order; for no
dependency it is the header line alone; rendering cannot fail: the text is
handed to `os.WriteFile` as soon as the two directories exist, and when every
call succeeds `buildGemFile` returns the directory without error, for the empty
dependency list as for any other. -/
theorem buildGemFile_renders_gemfile (gems : List gem) :
    renderGemfile gems
      = "source ENV['GEM_SOURCE'] || \"https://rubygems.org\"\n" ++
        String.join (gems.map fun g => "gem \"" ++ g.Name ++ "\", " ++ g.Version ++ "\n") ∧
    renderGemfile [] = "source ENV['GEM_SOURCE'] || \"https://rubygems.org\"\n" ∧
    (∀ (w : BuildWorld) (project platform : String),
      (buildGemFile w project platform gems).written.map Prod.snd
        = if w.mkdirRoot.isSome || w.mkdirOut.isSome then none else some (renderGemfile gems)) ∧
    (∀ project platform : String,
      (buildGemFile BuildWorld.allOk project platform gems).result
        = .ok (lOutpath project platform)) := by
  refine ⟨foldl_append_eq_join gemLine gemfileHeader gems, rfl, ?_, fun _ _ => rfl⟩
  intro w project platform
  obtain ⟨a, b, c, d, e, f, g⟩ := w
  cases a <;> cases b <;> cases c <;> cases d <;> cases e <;> cases f <;> cases g <;> rfl

theorem scansLaunched_eq (p : List processOut) : scansLaunched p = p := by
  unfold scansLaunched
  have : ∀ acc : List processOut, p.foldl (fun launched po => launched ++ [po]) acc = acc ++ p := by
    induction p with
    | nil => simp
    | cons x p ih => intro acc; simp [ih]
  simpa using this []

/-- C6 fails on the code: `main` starts one scan per value received from
`processProjPlat`, whatever it is, so the number of scans always equals the
number of targets; for the single target `(agent, el-7)` whose `bundle lock`
fails, no build succeeds and yet one scan is started, on the zero `processOut`. -/
theorem main_scans_failed_build :
    (∀ targets : List (BuildWorld × depsOut),
      (scansLaunched (collectProcessOuts targets)).length = targets.length) ∧
    successfulBuilds
      [({ BuildWorld.allOk with bundleLock := some "exit status 16" },
        ⟨"agent", "el-7", [⟨"rake", "'13.0.6'"⟩]⟩)] = [] ∧
    scansLaunched (collectProcessOuts
      [({ BuildWorld.allOk with bundleLock := some "exit status 16" },
        ⟨"agent", "el-7", [⟨"rake", "'13.0.6'"⟩]⟩)]) = [processOut.zero] := by
  refine ⟨fun targets => ?_, by decide, by decide⟩
  rw [scansLaunched_eq]
  simp [collectProcessOuts]

/-! ## Theorems: `snykTest` -/

theorem length_le_toDigitsCore (b fuel n : Nat) (ds : List Char) :
    ds.length ≤ (Nat.toDigitsCore b fuel n ds).length := by
  induction fuel generalizing n ds with
  | zero => simp [Nat.toDigitsCore]
  | succ fuel ih =>
    simp only [Nat.toDigitsCore]
    split_ifs
    · simp
    · exact le_trans (by simp) (ih _ _)

theorem two_le_length_toDigits (n : Nat) (h : 10 ≤ n) : 2 ≤ (Nat.toDigits 10 n).length := by
  obtain ⟨m, rfl⟩ : ∃ m, n = m + 1 := ⟨n - 1, by omega⟩
  have h1 : ¬ (m + 1) / 10 = 0 := by omega
  unfold Nat.toDigits
  simp only [Nat.toDigitsCore, h1, if_false]
  split_ifs
  · simp
  · exact le_trans (by simp) (length_le_toDigitsCore _ _ _ _)

theorem exit_status_ne_one (code : Nat) (h : code ≠ 1) :
    "exit status " ++ toString code ≠ "exit status 1" := by
  intro he
  have hd := congrArg String.data he
  have h1 : ("exit status 1" : String) = "exit status " ++ "1" := by decide
  rw [h1] at hd
  simp only [String.data_append] at hd
  have hr : (toString code).data = ("1" : String).data := List.append_cancel_left hd
  have hrepr : (toString code).data = Nat.toDigits 10 code := rfl
  rw [hrepr] at hr
  by_cases hlt : code < 10
  · interval_cases code <;> first | exact h rfl | (revert hr; decide)
  · have := two_le_length_toDigits code (by omega)
    rw [hr] at this
    revert this
    decide

/-- C9: when the monitor step is skipped or succeeds, `snykTest` returns the
findings parsed from the output if `snyk test` exits with code 0 or 1, and returns
the error `exit status N` for every other exit code `N`; so it returns an error
if and only if the exit code is outside `{0, 1}`. -/
theorem snykTest_error_iff_exit_code (parse : String → List VulnReport) (noMonitor : Bool)
    (monitor : CmdResult) (code : Nat) (out : String)
    (hmon : noMonitor = true ∨ monitor.err = none) :
    ((code = 0 ∨ code = 1) →
      snykTest parse noMonitor monitor (.exited code) out = .ok (parse out)) ∧
    (¬ (code = 0 ∨ code = 1) →
      snykTest parse noMonitor monitor (.exited code) out
        = .error ("exit status " ++ toString code)) ∧
    ((∃ e, snykTest parse noMonitor monitor (.exited code) out = .error e) ↔
      ¬ (code = 0 ∨ code = 1)) := by
  have hm : (if !noMonitor then monitor.err else none) = none := by
    rcases hmon with h | h
    · simp [h]
    · simp [h]
  have hrest : snykTest parse noMonitor monitor (.exited code) out =
      match (CmdResult.exited code).err with
      | some e => if e ≠ "exit status 1" then .error e else .ok (parse out)
      | none => .ok (parse out) := by
    unfold snykTest
    rw [hm]
  have hok : (code = 0 ∨ code = 1) →
      snykTest parse noMonitor monitor (.exited code) out = .ok (parse out) := by
    rintro (h | h)
    · subst h
      rw [hrest]
      rfl
    · subst h
      rw [hrest]
      rfl
  have herr : ¬ (code = 0 ∨ code = 1) →
      snykTest parse noMonitor monitor (.exited code) out
        = .error ("exit status " ++ toString code) := by
    intro h
    have h0 : ¬ code = 0 := fun e => h (Or.inl e)
    have h1 : code ≠ 1 := fun e => h (Or.inr e)
    have he : (CmdResult.exited code).err = some ("exit status " ++ toString code) := by
      simp [CmdResult.err, h0]
    rw [hrest, he]
    simp only
    rw [if_pos (exit_status_ne_one code h1)]
  refine ⟨hok, herr, ?_⟩
  constructor
  · rintro ⟨e, he⟩ hc
    rw [hok hc] at he
    cases he
  · intro h
    exact ⟨_, herr h⟩

/-- Witness for C9: with the monitor step skipped, exit code 1 of `snyk test`
yields the parsed findings, and so does exit code 0. -/
theorem snykTest_error_iff_exit_code_witness :
    snykTest (fun _ => scenarioResults.flatten) true (.exited 0) (.exited 1) ""
      = .ok scenarioResults.flatten :=
  (snykTest_error_iff_exit_code (fun _ => scenarioResults.flatten) true (.exited 0) 1 ""
    (Or.inl rfl)).1 (Or.inr rfl)

/-! ## Theorems: the `vulns` output -/

theorem intercalate_go_eq (sep acc : String) (l : List String) :
    String.intercalate.go acc sep l = acc ++ String.join (l.map fun x => sep ++ x) := by
  induction l generalizing acc with
  | nil => simp [String.intercalate.go, String.join]
  | cons x l ih =>
    simp only [String.intercalate.go, ih, List.map_cons, join_cons, String.append_assoc]

theorem join_shift (sep : String) (l : List String) :
    sep ++ String.join (l.map fun x => x ++ sep)
      = String.join (l.map fun x => sep ++ x) ++ sep := by
  induction l with
  | nil => simp [String.join]
  | cons x l ih =>
    simp only [List.map_cons, join_cons, String.append_assoc, ih]

theorem trimSuffix_append (x : String) : trimSuffix (x ++ ",") "," = x := by
  unfold trimSuffix
  have hs : (",".data).isSuffixOf (x ++ ",").data = true := by
    simp [String.data_append, List.isSuffixOf]
  rw [if_pos hs]
  apply String.ext
  simp [String.data_append]

/-- For two findings or more, the value printed is the first finding directly
followed by the others joined by `,`: no delimiter separates the first two. -/
theorem vulnsValue_cons_cons (str : VulnReport → String) (v0 v1 : VulnReport)
    (rest : List VulnReport) :
    vulnsValue str (v0 :: v1 :: rest) = str v0 ++ ",".intercalate ((v1 :: rest).map str) := by
  unfold vulnsValue
  simp only
  rw [foldl_append_eq_join (fun v => str v ++ ",") (str v0) (v1 :: rest)]
  simp only [List.map_cons, join_cons, String.intercalate, intercalate_go_eq]
  have h := join_shift "," (rest.map str)
  simp only [List.map_map] at h
  have e1 : (rest.map fun v => str v ++ ",") = rest.map ((fun x => x ++ ",") ∘ str) := rfl
  have e2 : (rest.map str).map (fun x => "," ++ x) = rest.map ((fun x => "," ++ x) ∘ str) := by
    simp
  rw [e1, e2, String.append_assoc (str v1), h, ← String.append_assoc, ← String.append_assoc,
    trimSuffix_append, String.append_assoc]

/-- C7 fails on the code: for two findings or more `main` prints the first
finding directly followed by the others joined by `,`, so the delimiter between
the first two findings is missing; on the three findings of the scenario the
value is `foo@1.0bar@2.1,baz@0.3` where the delimited string is
`foo@1.0,bar@2.1,baz@0.3`. For the empty list the value is a blank. -/
theorem vulnsValue_misses_first_delimiter :
    (∀ (str : VulnReport → String) (v0 v1 : VulnReport) (rest : List VulnReport),
      vulnsValue str (v0 :: v1 :: rest)
        = str v0 ++ ",".intercalate ((v1 :: rest).map str)) ∧
    vulnsValue (fun v => v.PackageName ++ "@" ++ v.Version) (aggregate scenarioResults)
      = "foo@1.0bar@2.1,baz@0.3" ∧
    vulnsDelimited (fun v => v.PackageName ++ "@" ++ v.Version) (aggregate scenarioResults)
      = "foo@1.0,bar@2.1,baz@0.3" ∧
    (∀ str : VulnReport → String, vulnsValue str [] = " ") :=
  ⟨vulnsValue_cons_cons, by decide, by decide, fun _ => rfl⟩

end VanagonAction
